import Mathlib

/-!
Verification development for the WordPress-mirror content system.

The data model is embedded from src/app/models.py (SQLModel table and
schema declarations).  Components whose behaviour the design document
specifies but whose code is not part of the schema file (hierarchy
resolution, the response cache, pagination assembly, the single-flight
coordination) are modelled from the specification text; each such
definition is marked in its doc comment.

Conventions: Python int columns are embedded as Int, datetime columns as
Nat (a timestamp), Dict[str, Any] JSON columns as association lists of
string key/value pairs, and Optional[T] as Option T.  ORM Relationship
attributes are navigation conveniences, not columns, and are omitted.
-/

/-- Stand-in for JSON object column payloads (Dict[str, Any]). -/
abbrev JsonObject := List (String × String)

/-- Embedding of the users table (class User in src/app/models.py). -/
structure User where
  id : Option Int := none
  wp_id : Int
  name : String
  email : String
  slug : String
  description : String := ""
  avatar_url : Option String := none
  website_url : Option String := none
  created_at : Nat
  updated_at : Nat
deriving DecidableEq

/-- Embedding of the categories table (class Category in src/app/models.py). -/
structure Category where
  id : Option Int := none
  wp_id : Int
  name : String
  slug : String
  description : String := ""
  parent_id : Option Int := none
  count : Int := 0
  created_at : Nat
  updated_at : Nat
deriving DecidableEq

/-- Embedding of the tags table (class Tag in src/app/models.py). -/
structure Tag where
  id : Option Int := none
  wp_id : Int
  name : String
  slug : String
  description : String := ""
  count : Int := 0
  created_at : Nat
  updated_at : Nat
deriving DecidableEq

/-- Embedding of the post_category_links table: composite primary key
(post_id, category_id). -/
structure PostCategoryLink where
  post_id : Int
  category_id : Int
deriving DecidableEq

/-- Embedding of the post_tag_links table: composite primary key
(post_id, tag_id). -/
structure PostTagLink where
  post_id : Int
  tag_id : Int
deriving DecidableEq

/-- Embedding of the media table (class Media in src/app/models.py).
Note: this table declares no slug column. -/
structure Media where
  id : Option Int := none
  wp_id : Int
  title : String
  filename : String
  alt_text : String := ""
  caption : String := ""
  description : String := ""
  mime_type : String
  file_size : Option Int := none
  width : Option Int := none
  height : Option Int := none
  source_url : String
  sizes : JsonObject := []
  created_at : Nat
  updated_at : Nat
deriving DecidableEq

/-- Embedding of the posts table (class Post in src/app/models.py). -/
structure Post where
  id : Option Int := none
  wp_id : Int
  title : String
  slug : String
  content : String := ""
  excerpt : String := ""
  status : String := "publish"
  post_type : String := "post"
  comment_count : Int := 0
  view_count : Int := 0
  meta_title : Option String := none
  meta_description : Option String := none
  wp_created_at : Nat
  wp_updated_at : Nat
  created_at : Nat
  updated_at : Nat
  author_id : Option Int := none
  featured_image_id : Option Int := none
deriving DecidableEq

/-- Embedding of the pages table (class Page in src/app/models.py). -/
structure Page where
  id : Option Int := none
  wp_id : Int
  title : String
  slug : String
  content : String := ""
  status : String := "publish"
  parent_id : Option Int := none
  menu_order : Int := 0
  template : Option String := none
  meta_title : Option String := none
  meta_description : Option String := none
  wp_created_at : Nat
  wp_updated_at : Nat
  created_at : Nat
  updated_at : Nat
  author_id : Option Int := none
  featured_image_id : Option Int := none
deriving DecidableEq

/-- Embedding of the menus table (class Menu in src/app/models.py). -/
structure Menu where
  id : Option Int := none
  wp_id : Int
  name : String
  slug : String
  location : Option String := none
  count : Int := 0
  created_at : Nat
  updated_at : Nat
deriving DecidableEq

/-- Embedding of the menu_items table (class MenuItem in src/app/models.py). -/
structure MenuItem where
  id : Option Int := none
  wp_id : Int
  title : String
  url : String
  target : Option String := none
  description : String := ""
  css_classes : List String := []
  order : Int := 0
  parent_id : Option Int := none
  object_id : Option Int := none
  object_type : Option String := none
  created_at : Nat
  updated_at : Nat
  menu_id : Int
deriving DecidableEq

/-- Embedding of the custom_post_types table (class CustomPostType in
src/app/models.py).  Note: its slug column is only indexed, it carries
no unique=True flag, unlike Post.slug and Page.slug. -/
structure CustomPostType where
  id : Option Int := none
  wp_id : Int
  post_type : String
  title : String
  slug : String
  content : String := ""
  excerpt : String := ""
  status : String := "publish"
  custom_fields : JsonObject := []
  wp_created_at : Nat
  wp_updated_at : Nat
  created_at : Nat
  updated_at : Nat
  author_id : Option Int := none
  featured_image_id : Option Int := none
deriving DecidableEq

/-- Embedding of the app_settings table (class AppSettings in src/app/models.py). -/
structure AppSettings where
  id : Option Int := none
  key : String
  value : String
  description : String := ""
  is_public : Bool := false
  created_at : Nat
  updated_at : Nat
deriving DecidableEq

/-- Embedding of the cache_entries table (class CacheEntry in src/app/models.py):
cache_key is unique, data is an opaque JSON payload, expires_at is nullable. -/
structure CacheEntry where
  id : Option Int := none
  cache_key : String
  data : JsonObject
  expires_at : Option Nat := none
  created_at : Nat
  updated_at : Nat
deriving DecidableEq

/-- A state of the record store: one row list per table of src/app/models.py. -/
structure Store where
  users : List User := []
  categories : List Category := []
  tags : List Tag := []
  post_category_links : List PostCategoryLink := []
  post_tag_links : List PostTagLink := []
  media : List Media := []
  posts : List Post := []
  pages : List Page := []
  menus : List Menu := []
  menu_items : List MenuItem := []
  custom_post_types : List CustomPostType := []
  app_settings : List AppSettings := []
  cache_entries : List CacheEntry := []

/-- Primary-key constraint on a single-column integer key: the key is
non-null and no two rows share a value. -/
def pkOk {α : Type} [DecidableEq α] (rows : List α) (key : α → Option Int) : Prop :=
  (∀ r ∈ rows, (key r).isSome) ∧ (rows.map key).Nodup

/-- Unique-column constraint: no two rows share a value in the column. -/
def uniqueCol {α β : Type} [DecidableEq β] (rows : List α) (col : α → β) : Prop :=
  (rows.map col).Nodup

/-- Store states satisfying the primary-key and unique-column constraints
declared in src/app/models.py (primary_key=True and unique=True flags).
Foreign-key reference constraints are omitted; no claim depends on them.
CustomPostType.slug and MenuItem carry no unique slug constraint, and
Media has no slug column at all. -/
def ValidStore (s : Store) : Prop :=
  pkOk s.users User.id ∧ uniqueCol s.users User.wp_id ∧ uniqueCol s.users User.slug ∧
  pkOk s.categories Category.id ∧ uniqueCol s.categories Category.wp_id ∧
    uniqueCol s.categories Category.slug ∧
  pkOk s.tags Tag.id ∧ uniqueCol s.tags Tag.wp_id ∧ uniqueCol s.tags Tag.slug ∧
  uniqueCol s.post_category_links (fun l => (l.post_id, l.category_id)) ∧
  uniqueCol s.post_tag_links (fun l => (l.post_id, l.tag_id)) ∧
  pkOk s.media Media.id ∧ uniqueCol s.media Media.wp_id ∧
  pkOk s.posts Post.id ∧ uniqueCol s.posts Post.wp_id ∧ uniqueCol s.posts Post.slug ∧
  pkOk s.pages Page.id ∧ uniqueCol s.pages Page.wp_id ∧ uniqueCol s.pages Page.slug ∧
  pkOk s.menus Menu.id ∧ uniqueCol s.menus Menu.wp_id ∧ uniqueCol s.menus Menu.slug ∧
  pkOk s.menu_items MenuItem.id ∧ uniqueCol s.menu_items MenuItem.wp_id ∧
  pkOk s.custom_post_types CustomPostType.id ∧
    uniqueCol s.custom_post_types CustomPostType.wp_id ∧
  pkOk s.app_settings AppSettings.id ∧ uniqueCol s.app_settings AppSettings.key ∧
  pkOk s.cache_entries CacheEntry.id ∧ uniqueCol s.cache_entries CacheEntry.cache_key

set_option maxHeartbeats 1000000 in
set_option synthInstance.maxHeartbeats 400000 in
set_option synthInstance.maxSize 2048 in
instance (s : Store) : Decidable (ValidStore s) := by
  unfold ValidStore pkOk uniqueCol
  infer_instance

/-- Insert a row into post_category_links; the composite primary key
(post_id, category_id) makes inserting a duplicate pair fail. -/
def insertPostCategoryLink (s : Store) (l : PostCategoryLink) : Except String Store :=
  if s.post_category_links.any
      (fun e => decide (e.post_id = l.post_id ∧ e.category_id = l.category_id)) then
    .error "duplicate key value violates primary key of post_category_links"
  else
    .ok { s with post_category_links := s.post_category_links ++ [l] }

/-- Insert a row into post_tag_links; the composite primary key
(post_id, tag_id) makes inserting a duplicate pair fail. -/
def insertPostTagLink (s : Store) (l : PostTagLink) : Except String Store :=
  if s.post_tag_links.any
      (fun e => decide (e.post_id = l.post_id ∧ e.tag_id = l.tag_id)) then
    .error "duplicate key value violates primary key of post_tag_links"
  else
    .ok { s with post_tag_links := s.post_tag_links ++ [l] }

/-- Embedding of the SearchRequest schema (src/app/models.py): query has
min_length=1 and max_length=255; post_type defaults to "post"; limit
defaults to 10 with bounds 1..100; offset defaults to 0 with lower bound 0. -/
structure SearchRequest where
  query : String
  post_type : Option String := some "post"
  category_slug : Option String := none
  tag_slug : Option String := none
  limit : Int := 10
  offset : Int := 0
deriving DecidableEq

/-- Error raised when a request schema's field constraints are violated,
carrying the offending field name. -/
inductive ValidationError where
  | invalidField (field : String)
deriving DecidableEq

/-- Bounded length check for an optional string field (max_length on an
Optional[str] column); a missing value passes. -/
def optStrLenOk (o : Option String) (n : Nat) : Bool :=
  match o with
  | none => true
  | some s => decide (s.length ≤ n)

/-- Validation of a SearchRequest against the Field constraints declared in
src/app/models.py, applied before any record-store access. -/
def validateSearchRequest (r : SearchRequest) : Except ValidationError SearchRequest :=
  if r.query.length < 1 ∨ 255 < r.query.length then .error (.invalidField "query")
  else if optStrLenOk r.post_type 50 = false then .error (.invalidField "post_type")
  else if optStrLenOk r.category_slug 255 = false then .error (.invalidField "category_slug")
  else if optStrLenOk r.tag_slug 255 = false then .error (.invalidField "tag_slug")
  else if r.limit < 1 ∨ 100 < r.limit then .error (.invalidField "limit")
  else if r.offset < 0 then .error (.invalidField "offset")
  else .ok r

/-- A SearchRequest built from a query alone, taking every optional field's
declared default. -/
def SearchRequest.withDefaults (q : String) : SearchRequest := { query := q }

/-- Embedding of the PaginationParams schema (src/app/models.py): page ≥ 1
(default 1), per_page in 1..100 (default 10), order_by with max_length=50
(default "wp_created_at"), order matching the regex for asc|desc
(default "desc"). -/
structure PaginationParams where
  page : Int := 1
  per_page : Int := 10
  order_by : String := "wp_created_at"
  order : String := "desc"
deriving DecidableEq

/-- Validation of PaginationParams against the Field constraints declared in
src/app/models.py, applied before any record-store access. -/
def validatePaginationParams (p : PaginationParams) : Except ValidationError PaginationParams :=
  if p.page < 1 then .error (.invalidField "page")
  else if p.per_page < 1 ∨ 100 < p.per_page then .error (.invalidField "per_page")
  else if 50 < p.order_by.length then .error (.invalidField "order_by")
  else if ¬(p.order = "asc" ∨ p.order = "desc") then .error (.invalidField "order")
  else .ok p

/-- Two custom-post-type rows of the same kind sharing one slug; every
constraint that src/app/models.py actually declares is satisfied, because
CustomPostType.slug is indexed but not unique. -/
def cptA : CustomPostType :=
  { id := some 1, wp_id := 101, post_type := "book", title := "A", slug := "shared-slug",
    wp_created_at := 0, wp_updated_at := 0, created_at := 0, updated_at := 0 }

/-- Second custom-post-type row with the same slug as cptA. -/
def cptB : CustomPostType :=
  { id := some 2, wp_id := 102, post_type := "book", title := "B", slug := "shared-slug",
    wp_created_at := 0, wp_updated_at := 0, created_at := 0, updated_at := 0 }

/-- A store holding the two equal-slug custom post types and nothing else. -/
def c4Store : Store := { custom_post_types := [cptA, cptB] }

/-- C4 counterexample: a store satisfying every declared schema constraint
in which two CustomPostType rows of the same kind carry the same slug, so
slug is not unique per kind for CustomPostType (and the Media table has no
slug column at all, see the Media structure). -/
theorem slug_uniqueness_counterexample :
    ValidStore c4Store ∧ ¬ uniqueCol c4Store.custom_post_types CustomPostType.slug := by
  constructor
  · decide
  · unfold uniqueCol
    decide

/-- C4 amended: for the kinds whose schema does declare slug unique=True
(Post, Page, User), a valid store never holds two rows of that kind with
equal slugs; CustomPostType.slug is only indexed and Media has no slug. -/
theorem slug_uniqueness_amended (s : Store) (h : ValidStore s) (sl : String) :
    (s.posts.map Post.slug).count sl ≤ 1 ∧
    (s.pages.map Page.slug).count sl ≤ 1 ∧
    (s.users.map User.slug).count sl ≤ 1 := by
  obtain ⟨-, -, husl, -, -, -, -, -, -, -, -, -, -, -, -, hposl, -, -, hpgsl, -⟩ := h
  exact ⟨List.nodup_iff_count_le_one.mp hposl sl,
         List.nodup_iff_count_le_one.mp hpgsl sl,
         List.nodup_iff_count_le_one.mp husl sl⟩

/-- Witness for the amended C4 theorem at the concrete counterexample store. -/
theorem slug_uniqueness_amended_witness :
    (c4Store.posts.map Post.slug).count "shared-slug" ≤ 1 ∧
    (c4Store.pages.map Page.slug).count "shared-slug" ≤ 1 ∧
    (c4Store.users.map User.slug).count "shared-slug" ≤ 1 :=
  slug_uniqueness_amended c4Store (by decide) "shared-slug"

/-- Duplicate-free lists hold at most one element equal to any given value. -/
theorem countP_eq_value_le_one {α : Type} [DecidableEq α] (l : List α) (h : l.Nodup)
    (a : α) : l.countP (fun x => decide (x = a)) ≤ 1 := by
  induction l with
  | nil => simp
  | cons b t ih =>
    rw [List.countP_cons]
    rcases List.nodup_cons.mp h with ⟨hb, ht⟩
    by_cases hba : b = a
    · subst hba
      have : t.countP (fun x => decide (x = b)) = 0 :=
        List.countP_eq_zero.mpr (fun x hx => by
          simp only [decide_eq_true_eq]
          intro hxa
          exact hb (hxa ▸ hx))
      simp [this]
    · simpa [decide_eq_false hba] using ih ht

/-- Counting rows whose projected key equals a value is counting the value in
the projected list. -/
theorem countP_proj_eq {α β : Type} [DecidableEq β] (rows : List α) (f : α → β)
    (b : β) :
    rows.countP (fun e => decide (f e = b)) =
      (rows.map f).countP (fun x => decide (x = b)) := by
  rw [List.countP_map]
  rfl

/-- Appending a fresh pair-keyed row keeps the mapped pair list duplicate-free. -/
theorem nodup_map_append_of_fresh {α β : Type} [DecidableEq β] (rows : List α)
    (f : α → β) (x : α) (hnd : (rows.map f).Nodup)
    (hnew : ∀ e ∈ rows, f e ≠ f x) : ((rows ++ [x]).map f).Nodup := by
  rw [List.map_append, List.nodup_append]
  refine ⟨hnd, List.nodup_singleton _, ?_⟩
  intro b hb hbx
  simp only [List.map_cons, List.map_nil, List.mem_singleton] at hbx
  obtain ⟨e, he, rfl⟩ := List.mem_map.mp hb
  exact hnew e he hbx

/-- C5: in every valid store state there is at most one PostCategoryLink row
per (post_id, category_id) pair and at most one PostTagLink row per
(post_id, tag_id) pair, and the insert operations (the only writes to the
association tables) preserve validity of the whole store. -/
theorem association_edge_uniqueness (s : Store) (h : ValidStore s) :
    (∀ pr : Int × Int,
      s.post_category_links.countP (fun e => decide ((e.post_id, e.category_id) = pr)) ≤ 1 ∧
      s.post_tag_links.countP (fun e => decide ((e.post_id, e.tag_id) = pr)) ≤ 1) ∧
    (∀ (l : PostCategoryLink) (s' : Store),
      insertPostCategoryLink s l = .ok s' → ValidStore s') ∧
    (∀ (l : PostTagLink) (s' : Store),
      insertPostTagLink s l = .ok s' → ValidStore s') := by
  obtain ⟨h1, h2, h3, h4, h5, h6, h7, h8, h9, h10, h11, h12, h13, h14, h15, h16, h17,
    h18, h19, h20, h21, h22, h23, h24, h25, h26, h27, h28, h29, h30⟩ := h
  refine ⟨?_, ?_, ?_⟩
  · intro pr
    constructor
    · exact le_of_eq_of_le (countP_proj_eq _ _ _) (countP_eq_value_le_one _ h10 pr)
    · exact le_of_eq_of_le (countP_proj_eq _ _ _) (countP_eq_value_le_one _ h11 pr)
  · intro l s' hins
    by_cases hany : s.post_category_links.any
        (fun e => decide (e.post_id = l.post_id ∧ e.category_id = l.category_id)) = true
    · unfold insertPostCategoryLink at hins
      rw [if_pos hany] at hins
      exact absurd hins (by simp)
    · unfold insertPostCategoryLink at hins
      rw [if_neg hany] at hins
      injection hins with hs'
      subst hs'
      have hnew : ∀ e ∈ s.post_category_links,
          (e.post_id, e.category_id) ≠ (l.post_id, l.category_id) := by
        intro e he heq
        apply hany
        rw [List.any_eq_true]
        refine ⟨e, he, ?_⟩
        simp only [decide_eq_true_eq]
        exact ⟨congrArg Prod.fst heq, congrArg Prod.snd heq⟩
      exact ⟨h1, h2, h3, h4, h5, h6, h7, h8, h9,
        nodup_map_append_of_fresh _ _ _ h10 hnew, h11, h12, h13, h14, h15, h16, h17,
        h18, h19, h20, h21, h22, h23, h24, h25, h26, h27, h28, h29, h30⟩
  · intro l s' hins
    by_cases hany : s.post_tag_links.any
        (fun e => decide (e.post_id = l.post_id ∧ e.tag_id = l.tag_id)) = true
    · unfold insertPostTagLink at hins
      rw [if_pos hany] at hins
      exact absurd hins (by simp)
    · unfold insertPostTagLink at hins
      rw [if_neg hany] at hins
      injection hins with hs'
      subst hs'
      have hnew : ∀ e ∈ s.post_tag_links,
          (e.post_id, e.tag_id) ≠ (l.post_id, l.tag_id) := by
        intro e he heq
        apply hany
        rw [List.any_eq_true]
        refine ⟨e, he, ?_⟩
        simp only [decide_eq_true_eq]
        exact ⟨congrArg Prod.fst heq, congrArg Prod.snd heq⟩
      exact ⟨h1, h2, h3, h4, h5, h6, h7, h8, h9, h10,
        nodup_map_append_of_fresh _ _ _ h11 hnew, h12, h13, h14, h15, h16, h17,
        h18, h19, h20, h21, h22, h23, h24, h25, h26, h27, h28, h29, h30⟩

/-- A store with every table empty. -/
def emptyStore : Store := {}

/-- Witness for C5 at the empty store. -/
theorem association_edge_uniqueness_witness :
    (∀ pr : Int × Int,
      emptyStore.post_category_links.countP
        (fun e => decide ((e.post_id, e.category_id) = pr)) ≤ 1 ∧
      emptyStore.post_tag_links.countP
        (fun e => decide ((e.post_id, e.tag_id) = pr)) ≤ 1) ∧
    (∀ (l : PostCategoryLink) (s' : Store),
      insertPostCategoryLink emptyStore l = .ok s' → ValidStore s') ∧
    (∀ (l : PostTagLink) (s' : Store),
      insertPostTagLink emptyStore l = .ok s' → ValidStore s') :=
  association_edge_uniqueness emptyStore (by decide)

/-- C6: a search request whose query string is empty is rejected with a
ValidationError by the pure validation step (no store access is involved),
and every request that passes validation has a query of length at least 1. -/
theorem search_empty_query_rejected (r r' : SearchRequest) :
    (r.query.length = 0 → validateSearchRequest r = .error (.invalidField "query")) ∧
    (validateSearchRequest r = .ok r' → 1 ≤ r'.query.length) := by
  constructor
  · intro h
    unfold validateSearchRequest
    rw [if_pos (Or.inl (by omega))]
  · intro h
    unfold validateSearchRequest at h
    split_ifs at h with h1 h2 h3 h4 h5 h6
    injection h with hr
    subst hr
    push_neg at h1
    omega

/-- Witness for C6: the empty-query request is rejected. -/
theorem search_empty_query_rejected_witness :
    validateSearchRequest { query := "" } = .error (.invalidField "query") :=
  (search_empty_query_rejected { query := "" } { query := "" }).1 rfl

/-- Pagination parameters rejected by validation although page, per_page and
order all lie inside the bounds the claim names: only order_by (max_length
50) is out of range. -/
def longOrderBy : PaginationParams :=
  { page := 1, per_page := 10, order_by := String.mk (List.replicate 51 'x'),
    order := "desc" }

/-- C7 counterexample: validation also enforces order_by's max_length=50, so
a parameter set with page ≥ 1, per_page in 1..100 and order in asc|desc can
still be rejected; the claim's acceptance direction is false as stated. -/
theorem pagination_params_validation_counterexample :
    1 ≤ longOrderBy.page ∧ 1 ≤ longOrderBy.per_page ∧ longOrderBy.per_page ≤ 100 ∧
    longOrderBy.order = "desc" ∧
    validatePaginationParams longOrderBy = .error (.invalidField "order_by") :=
  ⟨by decide, by decide, by decide, rfl, rfl⟩

/-- C7 amended: validation accepts a parameter set exactly when page ≥ 1,
per_page lies in 1..100, order is asc or desc, and additionally order_by is
at most 50 characters; any violation is rejected as a ValidationError by the
pure validation step, before any store access. -/
theorem pagination_params_validation_amended (p : PaginationParams) :
    validatePaginationParams p = .ok p ↔
      (1 ≤ p.page ∧ 1 ≤ p.per_page ∧ p.per_page ≤ 100 ∧ p.order_by.length ≤ 50 ∧
       (p.order = "asc" ∨ p.order = "desc")) := by
  constructor
  · intro h
    unfold validatePaginationParams at h
    split_ifs at h with h1 h2 h3 h4
    all_goals try simp at h
    exact ⟨by omega, by omega, by omega, by omega, h4⟩
  · intro hc
    obtain ⟨hp, hpp1, hpp2, hob, hord⟩ := hc
    unfold validatePaginationParams
    rw [if_neg (by omega), if_neg (by omega), if_neg (by omega),
      if_neg (not_not_intro hord)]

/-- Witness for the amended C7 theorem: the defaults pass validation. -/
theorem pagination_params_validation_amended_witness :
    validatePaginationParams {} = .ok {} :=
  (pagination_params_validation_amended {}).mpr
    ⟨by decide, by decide, by decide, by decide, Or.inr rfl⟩

/-- C10: a SearchRequest built from a query alone takes the declared
defaults: post_type "post", no taxonomy filters, limit 10, offset 0. -/
theorem search_request_defaults (q : String) :
    (SearchRequest.withDefaults q).query = q ∧
    (SearchRequest.withDefaults q).post_type = some "post" ∧
    (SearchRequest.withDefaults q).category_slug = none ∧
    (SearchRequest.withDefaults q).tag_slug = none ∧
    (SearchRequest.withDefaults q).limit = 10 ∧
    (SearchRequest.withDefaults q).offset = 0 :=
  ⟨rfl, rfl, rfl, rfl, rfl, rfl⟩

/-- Embedding of the PaginatedResponse schema (src/app/models.py); fields are
the nonnegative pagination totals and the two navigation flags. -/
structure PaginatedResponse where
  total : Nat
  page : Nat
  per_page : Nat
  total_pages : Nat
  has_next : Bool
  has_previous : Bool
deriving DecidableEq

/-- Modelled from the spec: the View Assembler's pagination sub-contract
(total_pages = ceil(total / per_page)); the assembling code itself is not in
src/app/models.py.  Ceiling division on naturals. -/
def ceilPages (total per_page : Nat) : Nat := (total + per_page - 1) / per_page

/-- Modelled from the spec: assembling the paginated response envelope with
total_pages = ceil(total/per_page), has_next = page < total_pages,
has_previous = page > 1. -/
def assemblePaginated (total page per_page : Nat) : PaginatedResponse :=
  { total := total, page := page, per_page := per_page,
    total_pages := ceilPages total per_page,
    has_next := decide (page < ceilPages total per_page),
    has_previous := decide (1 < page) }

/-- Modelled from the spec: the slice of the ordered item list shown on a
given page (pages are 1-based). -/
def paginateItems {α : Type} (items : List α) (page per_page : Nat) : List α :=
  (items.drop ((page - 1) * per_page)).take per_page

/-- Characterisation of ceilPages as ceiling division: ceilPages total pp is
the least k with total ≤ k * pp. -/
theorem ceilPages_spec (total per_page : Nat) (h : 1 ≤ per_page) :
    total ≤ ceilPages total per_page * per_page ∧
    ∀ k : Nat, total ≤ k * per_page → ceilPages total per_page ≤ k := by
  constructor
  · by_contra hlt
    push_neg at hlt
    have hle : (ceilPages total per_page + 1) * per_page ≤ total + per_page - 1 := by
      rw [Nat.succ_mul]
      omega
    have h2 := (Nat.le_div_iff_mul_le (by omega : 0 < per_page)).mpr hle
    unfold ceilPages at h2 hlt
    omega
  · intro k hk
    have hlt : total + per_page - 1 < (k + 1) * per_page := by
      rw [Nat.succ_mul]
      omega
    have h2 := (Nat.div_lt_iff_lt_mul (by omega : 0 < per_page)).mpr hlt
    unfold ceilPages
    omega

/-- C3: for page ≥ 1 and per_page in 1..100, the assembled response carries
total_pages equal to the ceiling of total / per_page (characterised as the
least k with total ≤ k * per_page), has_next exactly when page < total_pages,
has_previous exactly when page > 1; the number of items on a page is
min per_page (total - (page-1)*per_page), and a page beyond total_pages
yields an empty item list (with the same response envelope), not an error. -/
theorem pagination_assembly_correct {α : Type} (items : List α)
    (total page per_page : Nat) (hpage : 1 ≤ page) (hpp1 : 1 ≤ per_page)
    (_hpp2 : per_page ≤ 100) (hlen : items.length = total) :
    (assemblePaginated total page per_page).total_pages = ceilPages total per_page ∧
    total ≤ ceilPages total per_page * per_page ∧
    (∀ k : Nat, total ≤ k * per_page → ceilPages total per_page ≤ k) ∧
    ((assemblePaginated total page per_page).has_next = true ↔
      page < ceilPages total per_page) ∧
    ((assemblePaginated total page per_page).has_previous = true ↔ 1 < page) ∧
    (paginateItems items page per_page).length =
      min per_page (total - (page - 1) * per_page) ∧
    (ceilPages total per_page < page → paginateItems items page per_page = []) := by
  obtain ⟨hceil1, hceil2⟩ := ceilPages_spec total per_page hpp1
  refine ⟨rfl, hceil1, hceil2, ?_, ?_, ?_, ?_⟩
  · simp [assemblePaginated]
  · simp [assemblePaginated]
  · simp [paginateItems, List.length_take, List.length_drop, hlen]
  · intro hbeyond
    unfold paginateItems
    rw [List.drop_eq_nil_of_le, List.take_nil]
    calc items.length = total := hlen
      _ ≤ ceilPages total per_page * per_page := hceil1
      _ ≤ (page - 1) * per_page := Nat.mul_le_mul_right _ (by omega)

/-- Witness for C3 at the claim's example: 25 items, per_page 10, page 3. -/
theorem pagination_assembly_correct_witness :
    (assemblePaginated 25 3 10).total_pages = ceilPages 25 10 ∧
    25 ≤ ceilPages 25 10 * 10 ∧
    (∀ k : Nat, 25 ≤ k * 10 → ceilPages 25 10 ≤ k) ∧
    ((assemblePaginated 25 3 10).has_next = true ↔ 3 < ceilPages 25 10) ∧
    ((assemblePaginated 25 3 10).has_previous = true ↔ 1 < 3) ∧
    (paginateItems (List.range 25) 3 10).length = min 10 (25 - (3 - 1) * 10) ∧
    (ceilPages 25 10 < 3 → paginateItems (List.range 25) 3 10 = []) :=
  pagination_assembly_correct (List.range 25) 25 3 10 (by decide) (by decide)
    (by decide) (by simp)

/-- Modelled from the spec: the Response Cache state — the cache_entries
rows plus the set of fingerprints whose computation is in flight (the
single-flight locks); the cache code itself is not in src/app/models.py,
only the CacheEntry table is. -/
structure ResponseCache where
  entries : List CacheEntry := []
  in_flight : List String := []
deriving DecidableEq

/-- Look up the cache row for a fingerprint. -/
def findEntry (c : ResponseCache) (fingerprint : String) : Option CacheEntry :=
  c.entries.find? (fun e => e.cache_key == fingerprint)

/-- Modelled from the spec: an entry is fresh when expires_at is null
(cache until invalidated) or still in the future; a read past expires_at is
treated as a miss. -/
def isFresh (e : CacheEntry) (now : Nat) : Bool :=
  match e.expires_at with
  | none => true
  | some t => decide (now < t)

/-- Modelled from the spec: on a miss, take the per-fingerprint in-flight
lock, run compute_fn, and on success store the result with
expires_at = now + ttl (null when ttl = 0); on failure write no entry.
Either way the lock is released.  The third component counts compute_fn
invocations made by this call. -/
def computeAndStore {ε : Type} (c : ResponseCache) (now : Nat) (fingerprint : String)
    (ttl : Nat) (compute_fn : Unit → Except ε JsonObject) :
    Except ε JsonObject × ResponseCache × Nat :=
  let locked : ResponseCache := { c with in_flight := fingerprint :: c.in_flight }
  match compute_fn () with
  | .ok d =>
    let entry : CacheEntry :=
      { cache_key := fingerprint, data := d,
        expires_at := if ttl = 0 then none else some (now + ttl),
        created_at := now, updated_at := now }
    (.ok d,
     { entries := entry :: locked.entries.filter (fun e => !(e.cache_key == fingerprint)),
       in_flight := locked.in_flight.erase fingerprint },
     1)
  | .error err =>
    (.error err,
     { entries := locked.entries, in_flight := locked.in_flight.erase fingerprint },
     1)

/-- Modelled from the spec: get_or_compute(fingerprint, ttl, compute_fn)
returns cached data if present and not expired, and otherwise computes and
stores the result. -/
def get_or_compute {ε : Type} (c : ResponseCache) (now : Nat) (fingerprint : String)
    (ttl : Nat) (compute_fn : Unit → Except ε JsonObject) :
    Except ε JsonObject × ResponseCache × Nat :=
  match findEntry c fingerprint with
  | some e =>
    if isFresh e now then (.ok e.data, c, 0)
    else computeAndStore c now fingerprint ttl compute_fn
  | none => computeAndStore c now fingerprint ttl compute_fn

/-- Successful compute: the result is stored under the fingerprint with the
ttl-derived expiry, any previous row for the fingerprint is overwritten, and
the in-flight lock is released. -/
theorem computeAndStore_ok {ε : Type} (c : ResponseCache) (now : Nat) (f : String)
    (ttl : Nat) (compute_fn : Unit → Except ε JsonObject) (d : JsonObject)
    (hok : compute_fn () = .ok d) :
    computeAndStore c now f ttl compute_fn =
      (.ok d,
       { entries :=
          { cache_key := f, data := d,
            expires_at := if ttl = 0 then none else some (now + ttl),
            created_at := now, updated_at := now } ::
            c.entries.filter (fun e => !(e.cache_key == f)),
         in_flight := c.in_flight },
       1) := by
  unfold computeAndStore
  rw [hok]
  simp [List.erase_cons_head]

/-- Failing compute: no entry is written, the error propagates unchanged,
and the in-flight lock is released, leaving the cache state as it was. -/
theorem computeAndStore_error {ε : Type} (c : ResponseCache) (now : Nat) (f : String)
    (ttl : Nat) (compute_fn : Unit → Except ε JsonObject) (err : ε)
    (herr : compute_fn () = .error err) :
    computeAndStore c now f ttl compute_fn = (.error err, c, 1) := by
  unfold computeAndStore
  rw [herr]
  simp [List.erase_cons_head]

/-- A fresh entry short-circuits get_or_compute: cached data is returned,
the state is untouched and compute_fn is not invoked. -/
theorem get_or_compute_hit {ε : Type} (c : ResponseCache) (now : Nat) (f : String)
    (ttl : Nat) (compute_fn : Unit → Except ε JsonObject) (e : CacheEntry)
    (hfind : findEntry c f = some e) (hfr : isFresh e now = true) :
    get_or_compute c now f ttl compute_fn = (.ok e.data, c, 0) := by
  unfold get_or_compute
  rw [hfind]
  simp [hfr]

/-- Without a fresh entry (none, or one already expired), get_or_compute
runs the compute-and-store path. -/
theorem get_or_compute_miss {ε : Type} (c : ResponseCache) (now : Nat) (f : String)
    (ttl : Nat) (compute_fn : Unit → Except ε JsonObject)
    (hmiss : ∀ e, findEntry c f = some e → isFresh e now = false) :
    get_or_compute c now f ttl compute_fn = computeAndStore c now f ttl compute_fn := by
  unfold get_or_compute
  cases hfind : findEntry c f with
  | none => rfl
  | some e =>
    simp [hmiss e hfind]

/-- C2: get_or_compute returns cached data for a present, unexpired entry
without invoking compute_fn; otherwise it invokes compute_fn once, stores
the result with expires_at = now + ttl (null when ttl = 0), and returns it;
a second call with the same fingerprint before expiry returns the identical
payload with no further compute_fn invocation. -/
theorem get_or_compute_cache_contract {ε : Type} (c : ResponseCache)
    (now now2 : Nat) (fingerprint : String) (ttl : Nat)
    (compute_fn : Unit → Except ε JsonObject) (d : JsonObject)
    (hmiss : ∀ e, findEntry c fingerprint = some e → isFresh e now = false)
    (hok : compute_fn () = .ok d)
    (hfresh2 : ttl = 0 ∨ now2 < now + ttl) :
    (∀ (c' : ResponseCache) (e : CacheEntry), findEntry c' fingerprint = some e →
        isFresh e now = true →
        get_or_compute c' now fingerprint ttl compute_fn = (.ok e.data, c', 0)) ∧
    (get_or_compute c now fingerprint ttl compute_fn).1 = .ok d ∧
    (get_or_compute c now fingerprint ttl compute_fn).2.2 = 1 ∧
    (∃ e : CacheEntry,
      findEntry (get_or_compute c now fingerprint ttl compute_fn).2.1 fingerprint
          = some e ∧
      e.data = d ∧
      e.expires_at = (if ttl = 0 then none else some (now + ttl))) ∧
    get_or_compute (get_or_compute c now fingerprint ttl compute_fn).2.1 now2
        fingerprint ttl compute_fn =
      (.ok d, (get_or_compute c now fingerprint ttl compute_fn).2.1, 0) := by
  have hrun := get_or_compute_miss c now fingerprint ttl compute_fn hmiss
  have hcs := computeAndStore_ok c now fingerprint ttl compute_fn d hok
  rw [hrun, hcs]
  set newEntry : CacheEntry :=
    { cache_key := fingerprint, data := d,
      expires_at := if ttl = 0 then none else some (now + ttl),
      created_at := now, updated_at := now } with hnew
  have hfind2 :
      findEntry
        { entries := newEntry :: c.entries.filter (fun e => !(e.cache_key == fingerprint)),
          in_flight := c.in_flight }
        fingerprint = some newEntry := by
    unfold findEntry
    simp
  have hfr2 : isFresh newEntry now2 = true := by
    unfold isFresh
    rw [hnew]
    rcases hfresh2 with h0 | hlt
    · simp [h0]
    · rcases Nat.eq_zero_or_pos ttl with h0 | hpos
      · simp [h0]
      · rw [if_neg (by omega)]
        simpa using hlt
  refine ⟨?_, rfl, rfl, ⟨newEntry, hfind2, rfl, rfl⟩, ?_⟩
  · intro c' e hfind hfr
    exact get_or_compute_hit c' now fingerprint ttl compute_fn e hfind hfr
  · exact get_or_compute_hit _ now2 fingerprint ttl compute_fn newEntry hfind2 hfr2

/-- An initially empty response cache, for concrete instantiations. -/
def emptyCache : ResponseCache := {}

/-- A compute function that succeeds with a fixed payload. -/
def okFn : Unit → Except Unit JsonObject := fun _ => .ok [("k", "v")]

/-- Witness for C2 at a cold cache, fingerprint "posts:list", ttl 5,
first call at time 0 and second call at time 3. -/
theorem get_or_compute_cache_contract_witness :
    (∀ (c' : ResponseCache) (e : CacheEntry), findEntry c' "posts:list" = some e →
        isFresh e 0 = true →
        get_or_compute c' 0 "posts:list" 5 okFn = (.ok e.data, c', 0)) ∧
    (get_or_compute emptyCache 0 "posts:list" 5 okFn).1 = .ok [("k", "v")] ∧
    (get_or_compute emptyCache 0 "posts:list" 5 okFn).2.2 = 1 ∧
    (∃ e : CacheEntry,
      findEntry (get_or_compute emptyCache 0 "posts:list" 5 okFn).2.1 "posts:list"
          = some e ∧
      e.data = [("k", "v")] ∧
      e.expires_at = (if 5 = 0 then none else some (0 + 5))) ∧
    get_or_compute (get_or_compute emptyCache 0 "posts:list" 5 okFn).2.1 3
        "posts:list" 5 okFn =
      (.ok [("k", "v")], (get_or_compute emptyCache 0 "posts:list" 5 okFn).2.1, 0) :=
  get_or_compute_cache_contract emptyCache 0 3 "posts:list" 5 okFn [("k", "v")]
    (fun e h => by simp [findEntry, emptyCache] at h) rfl (Or.inr (by omega))

/-- C8: when compute_fn fails on a miss, get_or_compute writes no cache
entry (the state is returned unchanged), propagates the failure to the
caller unchanged, and does not leave the fingerprint's in-flight lock held. -/
theorem compute_failure_no_entry {ε : Type} (c : ResponseCache) (now : Nat)
    (fingerprint : String) (ttl : Nat) (compute_fn : Unit → Except ε JsonObject)
    (err : ε)
    (hmiss : ∀ e, findEntry c fingerprint = some e → isFresh e now = false)
    (herr : compute_fn () = .error err) :
    get_or_compute c now fingerprint ttl compute_fn = (.error err, c, 1) ∧
    (fingerprint ∉ c.in_flight →
      fingerprint ∉ (get_or_compute c now fingerprint ttl compute_fn).2.1.in_flight) := by
  have hrun := get_or_compute_miss c now fingerprint ttl compute_fn hmiss
  have hcs := computeAndStore_error c now fingerprint ttl compute_fn err herr
  rw [hrun, hcs]
  exact ⟨rfl, fun h => h⟩

/-- A compute function that always fails. -/
def failFn : Unit → Except Unit JsonObject := fun _ => .error ()

/-- Witness for C8 at a cold cache. -/
theorem compute_failure_no_entry_witness :
    get_or_compute emptyCache 0 "posts:list" 5 failFn = (.error (), emptyCache, 1) ∧
    ("posts:list" ∉ emptyCache.in_flight →
      "posts:list" ∉ (get_or_compute emptyCache 0 "posts:list" 5 failFn).2.1.in_flight) :=
  compute_failure_no_entry emptyCache 0 "posts:list" 5 failFn ()
    (fun e h => by simp [findEntry, emptyCache] at h) rfl

/-- Modelled from the spec: the phase of one caller racing for a single
cold fingerprint; a finished caller records the payload it received. -/
inductive CallerPhase (δ : Type) where
  | start
  | waiting
  | computing
  | done (result : δ)
deriving DecidableEq

/-- Modelled from the spec: the shared state of the per-fingerprint
single-flight mechanism — the cache slot for the fingerprint, its
mutual-exclusion lock, each caller's phase, and how many times compute_fn
has executed. -/
structure SFState (n : Nat) (δ : Type) where
  cache : Option δ
  locked : Bool
  callers : Fin n → CallerPhase δ
  computeCount : Nat

/-- Replace one caller's phase. -/
def updateCaller {n : Nat} {δ : Type} (f : Fin n → CallerPhase δ) (i : Fin n)
    (v : CallerPhase δ) : Fin n → CallerPhase δ :=
  fun j => if j = i then v else f j

/-- Modelled from the spec: one interleaved step of the single-flight
protocol.  A caller that sees a filled cache takes the cached value; a
caller that sees an empty cache takes the lock if free (and computes) or
waits; the computing caller stores its result, bumps the execution count
and releases the lock; a waiting caller takes the value once stored. -/
inductive SFStep {n : Nat} {δ : Type} : SFState n δ → SFState n δ → Prop where
  | hit (s : SFState n δ) (i : Fin n) (d : δ) (hc : s.callers i = .start)
      (hd : s.cache = some d) :
      SFStep s { s with callers := updateCaller s.callers i (.done d) }
  | acquire (s : SFState n δ) (i : Fin n) (hc : s.callers i = .start)
      (hn : s.cache = none) (hl : s.locked = false) :
      SFStep s { s with locked := true, callers := updateCaller s.callers i .computing }
  | wait (s : SFState n δ) (i : Fin n) (hc : s.callers i = .start)
      (hn : s.cache = none) (hl : s.locked = true) :
      SFStep s { s with callers := updateCaller s.callers i .waiting }
  | finish (s : SFState n δ) (i : Fin n) (d : δ) (hc : s.callers i = .computing) :
      SFStep s { cache := some d, locked := false,
                 callers := updateCaller s.callers i (.done d),
                 computeCount := s.computeCount + 1 }
  | wake (s : SFState n δ) (i : Fin n) (d : δ) (hc : s.callers i = .waiting)
      (hd : s.cache = some d) :
      SFStep s { s with callers := updateCaller s.callers i (.done d) }

/-- All callers start simultaneously on a cold fingerprint: empty cache,
free lock, zero executions. -/
def initSF (n : Nat) (δ : Type) : SFState n δ :=
  { cache := none, locked := false, callers := fun _ => .start, computeCount := 0 }

/-- States reachable by interleaving the callers from the cold start. -/
def ReachableSF {n : Nat} {δ : Type} (s : SFState n δ) : Prop :=
  Relation.ReflTransGen SFStep (initSF n δ) s

/-- Single-flight protocol invariant: the execution count matches whether
the cache slot is filled; a computing caller exists only with an empty
cache, a held lock and no second computing caller; a finished caller holds
exactly the cached payload. -/
def SFInv {n : Nat} {δ : Type} (s : SFState n δ) : Prop :=
  (s.computeCount = if s.cache.isSome then 1 else 0) ∧
  (∀ i, s.callers i = .computing → s.cache = none ∧ s.locked = true ∧
      ∀ j, s.callers j = .computing → j = i) ∧
  (∀ i d, s.callers i = .done d → s.cache = some d)

/-- The invariant holds at the cold start. -/
theorem sfInv_init (n : Nat) (δ : Type) : SFInv (initSF n δ) := by
  refine ⟨by simp [initSF], ?_, ?_⟩
  · intro i h
    simp [initSF] at h
  · intro i d h
    simp [initSF] at h

/-- Every protocol step preserves the invariant. -/
theorem sfInv_step {n : Nat} {δ : Type} {s s' : SFState n δ}
    (hinv : SFInv s) (hstep : SFStep s s') : SFInv s' := by
  obtain ⟨h1, h2, h3⟩ := hinv
  cases hstep with
  | hit i d hc hd =>
    refine ⟨h1, ?_, ?_⟩
    · intro j hj
      simp only [updateCaller] at hj
      by_cases hji : j = i
      · simp [hji] at hj
      · rw [if_neg hji] at hj
        exact absurd hd (by rw [(h2 j hj).1]; exact fun h => Option.noConfusion h)
    · intro j d' hj
      simp only [updateCaller] at hj
      by_cases hji : j = i
      · rw [if_pos hji] at hj
        injection hj with hdd
        rw [← hdd]
        exact hd
      · rw [if_neg hji] at hj
        exact h3 j d' hj
  | acquire i hc hn hl =>
    refine ⟨h1, ?_, ?_⟩
    · intro j hj
      simp only [updateCaller] at hj
      by_cases hji : j = i
      · refine ⟨hn, rfl, ?_⟩
        intro k hk
        simp only [updateCaller] at hk
        by_cases hki : k = i
        · rw [hki, hji]
        · rw [if_neg hki] at hk
          exact absurd hl (by rw [(h2 k hk).2.1]; exact fun h => Bool.noConfusion h)
      · rw [if_neg hji] at hj
        exact absurd hl (by rw [(h2 j hj).2.1]; exact fun h => Bool.noConfusion h)
    · intro j d' hj
      simp only [updateCaller] at hj
      by_cases hji : j = i
      · simp [hji] at hj
      · rw [if_neg hji] at hj
        exact h3 j d' hj
  | wait i hc hn hl =>
    refine ⟨h1, ?_, ?_⟩
    · intro j hj
      simp only [updateCaller] at hj
      by_cases hji : j = i
      · simp [hji] at hj
      · rw [if_neg hji] at hj
        obtain ⟨ha, hb, hu⟩ := h2 j hj
        refine ⟨ha, hb, ?_⟩
        intro k hk
        simp only [updateCaller] at hk
        by_cases hki : k = i
        · simp [hki] at hk
        · rw [if_neg hki] at hk
          exact hu k hk
    · intro j d' hj
      simp only [updateCaller] at hj
      by_cases hji : j = i
      · simp [hji] at hj
      · rw [if_neg hji] at hj
        exact h3 j d' hj
  | finish i d hc =>
    obtain ⟨ha, hb, hu⟩ := h2 i hc
    refine ⟨?_, ?_, ?_⟩
    · have : s.computeCount = 0 := by
        rw [h1, ha]
        rfl
      simp [this]
    · intro j hj
      simp only [updateCaller] at hj
      by_cases hji : j = i
      · simp [hji] at hj
      · rw [if_neg hji] at hj
        exact absurd (hu j hj) hji
    · intro j d' hj
      simp only [updateCaller] at hj
      by_cases hji : j = i
      · rw [if_pos hji] at hj
        injection hj with hdd
        rw [hdd]
      · rw [if_neg hji] at hj
        exact absurd ha (by rw [h3 j d' hj]; exact fun h => Option.noConfusion h)
  | wake i d hc hd =>
    refine ⟨h1, ?_, ?_⟩
    · intro j hj
      simp only [updateCaller] at hj
      by_cases hji : j = i
      · simp [hji] at hj
      · rw [if_neg hji] at hj
        exact absurd hd (by rw [(h2 j hj).1]; exact fun h => Option.noConfusion h)
    · intro j d' hj
      simp only [updateCaller] at hj
      by_cases hji : j = i
      · rw [if_pos hji] at hj
        injection hj with hdd
        rw [← hdd]
        exact hd
      · rw [if_neg hji] at hj
        exact h3 j d' hj

/-- The invariant holds in every reachable state. -/
theorem sfInv_reachable {n : Nat} {δ : Type} {s : SFState n δ}
    (h : ReachableSF s) : SFInv s := by
  induction h with
  | refl => exact sfInv_init n δ
  | tail hab hbc ih => exact sfInv_step ih hbc

/-- C9: for any number n ≥ 1 of callers racing on the same cold fingerprint,
in every reachable interleaving in which all callers have completed, the
compute function executed exactly once and every caller ended with that
single computed result (the callers that did not compute waited for and
reused it). -/
theorem single_flight_exactly_once {δ : Type} (n : Nat) (s : SFState n δ)
    (hn : 1 ≤ n) (hreach : ReachableSF s)
    (hdone : ∀ i : Fin n, ∃ d : δ, s.callers i = .done d) :
    s.computeCount = 1 ∧
    ∃ d : δ, s.cache = some d ∧ ∀ i : Fin n, s.callers i = .done d := by
  obtain ⟨h1, -, h3⟩ := sfInv_reachable hreach
  obtain ⟨d0, hd0⟩ := hdone ⟨0, hn⟩
  have hcache : s.cache = some d0 := h3 _ _ hd0
  refine ⟨by rw [h1, hcache]; rfl, d0, hcache, ?_⟩
  intro i
  obtain ⟨d, hd⟩ := hdone i
  have hc2 := h3 _ _ hd
  rw [hcache] at hc2
  injection hc2 with hdd
  rw [hd, hdd]

/-- The state reached by the trace: caller 0 acquires the lock, caller 1
finds it held and waits, caller 0 finishes with payload 7, caller 1 wakes
with the cached 7. -/
def sfFinal : SFState 2 Nat :=
  { cache := some 7, locked := false,
    callers := updateCaller (updateCaller (updateCaller (updateCaller
      (fun _ => CallerPhase.start) 0 CallerPhase.computing) 1 CallerPhase.waiting)
      0 (CallerPhase.done 7)) 1 (CallerPhase.done 7),
    computeCount := 1 }

/-- Witness for C9: an explicit two-caller interleaving from the cold start
in which both callers complete; the theorem yields one execution and a
shared result. -/
theorem single_flight_exactly_once_witness :
    sfFinal.computeCount = 1 ∧
    ∃ d : Nat, sfFinal.cache = some d ∧ ∀ i : Fin 2, sfFinal.callers i = .done d :=
  single_flight_exactly_once 2 sfFinal (by omega)
    (Relation.ReflTransGen.tail
      (Relation.ReflTransGen.tail
        (Relation.ReflTransGen.tail
          (Relation.ReflTransGen.tail Relation.ReflTransGen.refl
            (SFStep.acquire _ 0 rfl rfl rfl))
          (SFStep.wait _ 1 (by decide) rfl rfl))
        (SFStep.finish _ 0 7 (by decide)))
      (SFStep.wake _ 1 7 (by decide) rfl))
    (fun i => ⟨7, by fin_cases i <;> rfl⟩)

/-- Modelled from the spec: a hierarchical entity (Category, Page or
MenuItem) as seen by the Hierarchy Resolver — its identifier, optional
self-referential parent pointer, and ordering key. -/
structure HNode where
  id : Nat
  parent_id : Option Nat := none
  order : Nat := 0
deriving DecidableEq

/-- Identifiers of the loaded nodes. -/
def idsOf (nodes : List HNode) : List Nat := nodes.map HNode.id

/-- The id-to-node mapping the resolver builds in one pass. -/
def lookupNode (nodes : List HNode) (i : Nat) : Option HNode :=
  nodes.find? (fun n => n.id == i)

/-- One raw parent-pointer step: the declared parent when it exists among
the loaded nodes, none at a declared root or a dangling reference. -/
def rawParent (nodes : List HNode) (i : Nat) : Option Nat :=
  match lookupNode nodes i with
  | some n =>
    match n.parent_id with
    | some p => if decide (p ∈ idsOf nodes) then some p else none
    | none => none
  | none => none

/-- Iterated raw parent steps (the ancestor k levels up, if the chain goes
that far). -/
def climb (nodes : List HNode) : Nat → Nat → Option Nat
  | 0, i => some i
  | k + 1, i =>
    match rawParent nodes i with
    | some p => climb nodes k p
    | none => none

/-- Modelled from the spec: cycle detection — a node lies on a parent
cycle when some positive number of raw parent steps (at most the node
count) leads back to it. -/
def onCycle (nodes : List HNode) (i : Nat) : Bool :=
  (List.range nodes.length).any (fun k => decide (climb nodes (k + 1) i = some i))

/-- Modelled from the spec: the parent the resolver keeps for a node — its
declared parent when that parent is present and the node is not on a
cycle; otherwise none, demoting the node to a root (data visibility over
strict hierarchy fidelity). -/
def finalParent (nodes : List HNode) (n : HNode) : Option Nat :=
  match n.parent_id with
  | none => none
  | some p =>
    if decide (p ∈ idsOf nodes) && !(onCycle nodes n.id) then some p else none

/-- Ordering key comparison: stable sort by the entity's ordering key,
ties broken by identifier ascending. -/
def keyLE (a b : HNode) : Bool :=
  decide (a.order < b.order ∨ (a.order = b.order ∧ a.id ≤ b.id))

/-- Insertion step of the ordering sort. -/
def insertByKey (n : HNode) : List HNode → List HNode
  | [] => [n]
  | m :: ms => if keyLE n m then n :: m :: ms else m :: insertByKey n ms

/-- Sort nodes by (ordering key, id). -/
def sortByKey (l : List HNode) : List HNode := l.foldr insertByKey []

/-- Ordered child id list of a node in the resolved forest. -/
def childrenOf (nodes : List HNode) (i : Nat) : List Nat :=
  (sortByKey (nodes.filter (fun n => finalParent nodes n == some i))).map HNode.id

/-- Ordered root id list of the resolved forest: nodes with no kept parent,
declared roots and demoted nodes alike. -/
def rootsOf (nodes : List HNode) : List Nat :=
  (sortByKey (nodes.filter (fun n => finalParent nodes n == none))).map HNode.id

/-- Ids of nodes that declared a parent but were demoted to roots. -/
def demotedIds (nodes : List HNode) : List Nat :=
  (nodes.filter (fun n => n.parent_id.isSome && (finalParent nodes n == none))).map HNode.id

/-- Non-fatal HierarchyIntegrityWarning flag: set exactly when demotions occurred. -/
def hierarchyIntegrityWarning (nodes : List HNode) : Bool :=
  !(demotedIds nodes).isEmpty

/-- The resolver's output: the ordered forest as root list plus
parent-to-children mapping (the very mapping the spec's algorithm builds),
with the integrity-warning metadata. -/
structure ResolvedForest where
  roots : List Nat
  children : Nat → List Nat
  warning : Bool

/-- Modelled from the spec: the Hierarchy Resolver. -/
def resolveForest (nodes : List HNode) : ResolvedForest :=
  { roots := rootsOf nodes, children := fun i => childrenOf nodes i,
    warning := hierarchyIntegrityWarning nodes }

/-- One final-parent step at the id level. -/
def fpId (nodes : List HNode) (i : Nat) : Option Nat :=
  match lookupNode nodes i with
  | some n => finalParent nodes n
  | none => none

/-- Iterated final-parent steps. -/
def fpClimb (nodes : List HNode) : Nat → Nat → Option Nat
  | 0, i => some i
  | k + 1, i =>
    match fpId nodes i with
    | some p => fpClimb nodes k p
    | none => none

/-- Number of occurrences of an id in a list. -/
def occCount (l : List Nat) (x : Nat) : Nat :=
  l.countP (fun y => decide (y = x))

/-- Inserting into the sorted list is a permutation of consing. -/
theorem insertByKey_perm (n : HNode) (l : List HNode) :
    (insertByKey n l).Perm (n :: l) := by
  induction l with
  | nil => exact List.Perm.refl _
  | cons m ms ih =>
    unfold insertByKey
    by_cases h : keyLE n m = true
    · rw [if_pos h]
    · rw [if_neg h]
      exact (ih.cons m).trans (List.Perm.swap n m ms)

/-- Sorting by key permutes the list. -/
theorem sortByKey_perm (l : List HNode) : (sortByKey l).Perm l := by
  induction l with
  | nil => exact List.Perm.refl _
  | cons m ms ih =>
    exact (insertByKey_perm m (sortByKey ms)).trans (ih.cons m)

/-- A successful lookup returns a loaded node carrying the looked-up id. -/
theorem lookupNode_spec {nodes : List HNode} {i : Nat} {n : HNode}
    (h : lookupNode nodes i = some n) : n ∈ nodes ∧ n.id = i := by
  unfold lookupNode at h
  refine ⟨List.mem_of_find?_eq_some h, ?_⟩
  have := List.find?_some h
  simpa using this

/-- With duplicate-free ids, lookup finds each loaded node by its id. -/
theorem lookupNode_of_mem {nodes : List HNode} (hnd : (idsOf nodes).Nodup)
    {n : HNode} (hm : n ∈ nodes) : lookupNode nodes n.id = some n := by
  induction nodes with
  | nil => cases hm
  | cons m ms ih =>
    have hnd' : m.id ∉ idsOf ms ∧ (idsOf ms).Nodup := by
      unfold idsOf at hnd ⊢
      rw [List.map_cons, List.nodup_cons] at hnd
      exact hnd
    rcases List.mem_cons.mp hm with rfl | hm'
    · unfold lookupNode
      simp [List.find?]
    · have hne : (m.id == n.id) = false := by
        rw [beq_eq_false_iff_ne]
        intro he
        exact hnd'.1 (he ▸ List.mem_map_of_mem HNode.id hm')
      have := ih hnd'.2 hm'
      unfold lookupNode at this ⊢
      rw [List.find?_cons_of_neg _ (by simp [hne]), this]

/-- Membership in a child list means a loaded node with that id keeps the
given parent. -/
theorem mem_childrenOf {nodes : List HNode} {x p : Nat} :
    x ∈ childrenOf nodes p ↔
      ∃ n, n ∈ nodes ∧ finalParent nodes n = some p ∧ n.id = x := by
  unfold childrenOf
  rw [List.mem_map]
  constructor
  · rintro ⟨n, hn, rfl⟩
    rw [(sortByKey_perm _).mem_iff] at hn
    obtain ⟨hmem, hfp⟩ := List.mem_filter.mp hn
    exact ⟨n, hmem, by simpa using hfp, rfl⟩
  · rintro ⟨n, hmem, hfp, rfl⟩
    refine ⟨n, ?_, rfl⟩
    rw [(sortByKey_perm _).mem_iff]
    exact List.mem_filter.mpr ⟨hmem, by simp [hfp]⟩

/-- Characterisation of a kept parent. -/
theorem finalParent_eq_some {nodes : List HNode} {n : HNode} {p : Nat} :
    finalParent nodes n = some p ↔
      n.parent_id = some p ∧ p ∈ idsOf nodes ∧ onCycle nodes n.id = false := by
  unfold finalParent
  cases hpid : n.parent_id with
  | none => simp
  | some q =>
    show (if (decide (q ∈ idsOf nodes) && !onCycle nodes n.id) = true
        then some q else none) = some p ↔ _
    by_cases hq : q ∈ idsOf nodes
    · by_cases hc : onCycle nodes n.id = true
      · rw [if_neg (by simp [hc])]
        simp [hc]
      · have hc' : onCycle nodes n.id = false := by
          cases honc : onCycle nodes n.id
          · rfl
          · exact absurd honc hc
        rw [if_pos (by simp [hq, hc'])]
        constructor
        · intro h
          injection h with h
          subst h
          exact ⟨rfl, hq, hc'⟩
        · rintro ⟨h, -, -⟩
          exact h
    · rw [if_neg (by simp [hq])]
      constructor
      · intro h
        cases h
      · rintro ⟨h, hp, -⟩
        injection h with h
        exact absurd (h ▸ hp) hq

/-- With duplicate-free ids, a node's id occurs in a filtered projection
exactly when the node passes the filter. -/
theorem occCount_filter_map (nodes : List HNode) (hnd : (idsOf nodes).Nodup)
    (p : HNode → Bool) (n : HNode) (hn : n ∈ nodes) :
    occCount ((nodes.filter p).map HNode.id) n.id = if p n then 1 else 0 := by
  induction nodes with
  | nil => cases hn
  | cons m ms ih =>
    have hnd' : m.id ∉ idsOf ms ∧ (idsOf ms).Nodup := by
      unfold idsOf at hnd ⊢
      rw [List.map_cons, List.nodup_cons] at hnd
      exact hnd
    have hzero : ∀ x : Nat, x ∉ idsOf ms → occCount ((ms.filter p).map HNode.id) x = 0 := by
      intro x hx
      unfold occCount
      rw [List.countP_eq_zero]
      intro y hy
      simp only [decide_eq_true_eq]
      intro hyx
      obtain ⟨e, he, rfl⟩ := List.mem_map.mp hy
      exact hx (hyx ▸ List.mem_map_of_mem HNode.id (List.mem_of_mem_filter he))
    rcases List.mem_cons.mp hn with rfl | hm'
    · rw [List.filter_cons]
      by_cases hp : p n = true
      · rw [if_pos hp, List.map_cons]
        unfold occCount
        rw [List.countP_cons]
        have h0 := hzero n.id hnd'.1
        unfold occCount at h0
        rw [h0]
        simp [hp]
      · rw [if_neg hp]
        have h0 := hzero n.id hnd'.1
        rw [h0]
        simp [hp]
    · have hne : m.id ≠ n.id :=
        fun he => hnd'.1 (he ▸ List.mem_map_of_mem HNode.id hm')
      rw [List.filter_cons]
      by_cases hp : p m = true
      · rw [if_pos hp, List.map_cons]
        unfold occCount
        rw [List.countP_cons]
        have := ih hnd'.2 hm'
        unfold occCount at this
        rw [this]
        simp [hne]
      · rw [if_neg hp]
        exact ih hnd'.2 hm'

/-- A node's id occurs in the root list exactly when its kept parent is none. -/
theorem occCount_rootsOf (nodes : List HNode) (hnd : (idsOf nodes).Nodup)
    (n : HNode) (hn : n ∈ nodes) :
    occCount (rootsOf nodes) n.id = if finalParent nodes n = none then 1 else 0 := by
  unfold rootsOf occCount
  rw [((sortByKey_perm _).map HNode.id).countP_eq]
  have := occCount_filter_map nodes hnd (fun m => finalParent nodes m == none) n hn
  unfold occCount at this
  rw [this]
  by_cases h : finalParent nodes n = none
  · simp [h]
  · simp [h]

/-- A node's id occurs in a child list exactly when its kept parent is that
list's node. -/
theorem occCount_childrenOf (nodes : List HNode) (hnd : (idsOf nodes).Nodup)
    (n : HNode) (hn : n ∈ nodes) (q : Nat) :
    occCount (childrenOf nodes q) n.id = if finalParent nodes n = some q then 1 else 0 := by
  unfold childrenOf occCount
  rw [((sortByKey_perm _).map HNode.id).countP_eq]
  have := occCount_filter_map nodes hnd (fun m => finalParent nodes m == some q) n hn
  unfold occCount at this
  rw [this]
  by_cases h : finalParent nodes n = some q
  · simp [h]
  · simp [h]

/-- Occurrences of a node's id across the child lists of a duplicate-free
id collection: one when its kept parent is in the collection, zero otherwise. -/
theorem occCount_flatMap_childrenOf (nodes : List HNode) (hnd : (idsOf nodes).Nodup)
    (n : HNode) (hn : n ∈ nodes) :
    ∀ ids : List Nat, ids.Nodup →
      occCount (ids.flatMap (childrenOf nodes)) n.id =
        (match finalParent nodes n with
         | some p => if p ∈ ids then 1 else 0
         | none => 0) := by
  intro ids hids
  induction ids with
  | nil =>
    cases hfp : finalParent nodes n <;> simp [occCount, hfp]
  | cons q qs ih =>
    obtain ⟨hq, hqs⟩ := List.nodup_cons.mp hids
    rw [List.flatMap_cons]
    unfold occCount
    rw [List.countP_append]
    have h1 := occCount_childrenOf nodes hnd n hn q
    have h2 := ih hqs
    unfold occCount at h1 h2
    rw [h1, h2]
    cases hfp : finalParent nodes n with
    | none => simp
    | some p =>
      by_cases hpq : p = q
      · subst hpq
        simp [hq]
      · simp [hpq]

/-- Every id of an input node occurs exactly once across the resolved
forest's root list and child lists combined; in particular no node is
dropped, duplicated, or attached to two parents. -/
theorem occCount_forest (nodes : List HNode) (hnd : (idsOf nodes).Nodup)
    (x : Nat) (hx : x ∈ idsOf nodes) :
    occCount (rootsOf nodes ++ (idsOf nodes).flatMap (childrenOf nodes)) x = 1 := by
  obtain ⟨n, hn, rfl⟩ := List.mem_map.mp hx
  unfold occCount
  rw [List.countP_append]
  have h1 := occCount_rootsOf nodes hnd n hn
  have h2 := occCount_flatMap_childrenOf nodes hnd n hn (idsOf nodes) hnd
  unfold occCount at h1 h2
  rw [h1, h2]
  cases hfp : finalParent nodes n with
  | none => simp
  | some p =>
    have hp : p ∈ idsOf nodes := (finalParent_eq_some.mp hfp).2.1
    simp [hp]

/-- A final-parent step is also a raw parent step, and only nodes off any
cycle take one. -/
theorem fpId_eq_some {nodes : List HNode} {i p : Nat} (h : fpId nodes i = some p) :
    rawParent nodes i = some p ∧ onCycle nodes i = false := by
  unfold fpId at h
  cases hl : lookupNode nodes i with
  | none =>
    rw [hl] at h
    cases h
  | some n =>
    rw [hl] at h
    have h' : finalParent nodes n = some p := h
    obtain ⟨hpid, hp, hcyc⟩ := finalParent_eq_some.mp h'
    have hni : n.id = i := (lookupNode_spec hl).2
    constructor
    · simp [rawParent, hl, hpid, hp]
    · rw [← hni]
      exact hcyc

/-- Final-parent chains are raw parent chains. -/
theorem fpClimb_imp_climb (nodes : List HNode) :
    ∀ (k i j : Nat), fpClimb nodes k i = some j → climb nodes k i = some j := by
  intro k
  induction k with
  | zero => intro i j h; exact h
  | succ k ih =>
    intro i j h
    unfold fpClimb at h
    cases hfp : fpId nodes i with
    | none =>
      rw [hfp] at h
      exact Option.noConfusion h
    | some p =>
      rw [hfp] at h
      have h' : fpClimb nodes k p = some j := h
      have hraw := (fpId_eq_some hfp).1
      unfold climb
      rw [hraw]
      exact ih p j h'

/-- No kept-parent chain of positive length at most the node count returns
to its start: demotion breaks every cycle. -/
theorem fpClimb_no_cycle (nodes : List HNode) :
    ∀ (k i : Nat), 1 ≤ k → k ≤ nodes.length → fpClimb nodes k i ≠ some i := by
  intro k i hk1 hk2 h
  obtain ⟨p, hp⟩ : ∃ p, fpId nodes i = some p := by
    cases k with
    | zero => omega
    | succ k =>
      unfold fpClimb at h
      cases hfp : fpId nodes i with
      | none =>
        rw [hfp] at h
        exact Option.noConfusion h
      | some p => exact ⟨p, rfl⟩
  have hcyc := (fpId_eq_some hp).2
  have hclimb := fpClimb_imp_climb nodes k i i h
  have honc : onCycle nodes i = true := by
    unfold onCycle
    rw [List.any_eq_true]
    have hk : k - 1 + 1 = k := by omega
    refine ⟨k - 1, List.mem_range.mpr (by omega), ?_⟩
    rw [hk]
    exact decide_eq_true hclimb
  rw [honc] at hcyc
  cases hcyc

/-- A child edge climbs one final-parent step back to its parent. -/
theorem fpId_of_child {nodes : List HNode} (hnd : (idsOf nodes).Nodup) {x p : Nat}
    (h : x ∈ childrenOf nodes p) : fpId nodes x = some p := by
  obtain ⟨n, hn, hfp, rfl⟩ := mem_childrenOf.mp h
  unfold fpId
  rw [lookupNode_of_mem hnd hn]
  exact hfp

/-- The parent of any child edge is a loaded node. -/
theorem childParent_mem_ids {nodes : List HNode} {x p : Nat}
    (h : x ∈ childrenOf nodes p) : p ∈ idsOf nodes := by
  obtain ⟨n, -, hfp, -⟩ := mem_childrenOf.mp h
  exact (finalParent_eq_some.mp hfp).2.1

/-- Splitting an iterated climb. -/
theorem fpClimb_add (nodes : List HNode) :
    ∀ (m k i : Nat), fpClimb nodes (m + k) i =
      (match fpClimb nodes m i with
       | some j => fpClimb nodes k j
       | none => none) := by
  intro m
  induction m with
  | zero =>
    intro k i
    rw [Nat.zero_add]
    rfl
  | succ m ih =>
    intro k i
    rw [Nat.succ_add]
    cases hfp : fpId nodes i with
    | none =>
      have hL : fpClimb nodes (m + k + 1) i = none := by
        show (match fpId nodes i with
          | some p => fpClimb nodes (m + k) p
          | none => none) = none
        rw [hfp]
      have hR : fpClimb nodes (m + 1) i = none := by
        show (match fpId nodes i with
          | some p => fpClimb nodes m p
          | none => none) = none
        rw [hfp]
      rw [hL, hR]
    | some p =>
      have hL : fpClimb nodes (m + k + 1) i = fpClimb nodes (m + k) p := by
        show (match fpId nodes i with
          | some q => fpClimb nodes (m + k) q
          | none => none) = fpClimb nodes (m + k) p
        rw [hfp]
      have hR : fpClimb nodes (m + 1) i = fpClimb nodes m p := by
        show (match fpId nodes i with
          | some q => fpClimb nodes m q
          | none => none) = fpClimb nodes m p
        rw [hfp]
      rw [hL, hR, ih k p]

/-- Climbing back along a child path: from the last node of a path segment,
as many final-parent steps as the segment has edges lead to its first node. -/
theorem chain_climb_segment (nodes : List HNode) (hnd : (idsOf nodes).Nodup) :
    ∀ (xs : List Nat) (x y : Nat),
      List.Chain' (fun u v => v ∈ childrenOf nodes u) (x :: (xs ++ [y])) →
      fpClimb nodes (xs.length + 1) y = some x := by
  intro xs
  induction xs with
  | nil =>
    intro x y h
    have hr : y ∈ childrenOf nodes x := h.rel_head
    have hf := fpId_of_child hnd hr
    show (match fpId nodes y with
      | some p => fpClimb nodes 0 p
      | none => none) = some x
    rw [hf]
    rfl
  | cons z rest ih =>
    intro x y h
    have h1 : z ∈ childrenOf nodes x := h.rel_head
    have h2 := h.tail
    have ihz := ih z y h2
    have hfz := fpId_of_child hnd h1
    simp only [List.length_cons]
    rw [fpClimb_add nodes (rest.length + 1) 1 y, ihz]
    show fpClimb nodes 1 z = some x
    show (match fpId nodes z with
      | some p => fpClimb nodes 0 p
      | none => none) = some x
    rw [hfz]
    rfl

/-- Every non-final node of a child path is a loaded node. -/
theorem chain_front_mem_ids (nodes : List HNode) :
    ∀ (xs : List Nat) (y : Nat),
      List.Chain' (fun u v => v ∈ childrenOf nodes u) (xs ++ [y]) →
      ∀ u ∈ xs, u ∈ idsOf nodes := by
  intro xs
  induction xs with
  | nil =>
    intro y h u hu
    cases hu
  | cons x rest ih =>
    intro y h u hu
    rcases List.mem_cons.mp hu with rfl | hu'
    · cases hrest : rest with
      | nil =>
        rw [hrest] at h
        exact childParent_mem_ids h.rel_head
      | cons z rest' =>
        rw [hrest] at h
        exact childParent_mem_ids h.rel_head
    · exact ih y h.tail u hu'

/-- Splitting a list at the first occurrence of a member. -/
theorem mem_split_first {α : Type} [DecidableEq α] {a : α} :
    ∀ {l : List α}, a ∈ l → ∃ s u, l = s ++ a :: u ∧ a ∉ s := by
  intro l
  induction l with
  | nil => intro h; cases h
  | cons b t ih =>
    intro h
    by_cases hba : b = a
    · exact ⟨[], t, by rw [hba]; rfl, List.not_mem_nil a⟩
    · have ht : a ∈ t := by
        rcases List.mem_cons.mp h with h1 | h1
        · exact absurd h1.symm hba
        · exact h1
      obtain ⟨s, u, rfl, hns⟩ := ih ht
      refine ⟨b :: s, u, rfl, ?_⟩
      intro hm
      rcases List.mem_cons.mp hm with h1 | h1
      · exact hba h1.symm
      · exact hns h1

/-- A list with a repetition decomposes around its first repeated value,
with the stretch from that value's first occurrence up to (excluding) its
second occurrence repetition-free. -/
theorem exists_first_dup {α : Type} [DecidableEq α] :
    ∀ (l : List α), ¬ l.Nodup →
      ∃ (l₁ : List α) (v : α) (l₂ l₃ : List α),
        l = l₁ ++ v :: l₂ ++ v :: l₃ ∧ (v :: l₂).Nodup := by
  intro l
  induction l with
  | nil => intro h; exact absurd List.nodup_nil h
  | cons a t ih =>
    intro h
    by_cases ht : t.Nodup
    · have ha : a ∈ t := by
        by_contra hna
        exact h (List.nodup_cons.mpr ⟨hna, ht⟩)
      obtain ⟨s, u, rfl, hns⟩ := mem_split_first ha
      refine ⟨[], a, s, u, rfl, List.nodup_cons.mpr ⟨hns, ?_⟩⟩
      exact ht.sublist (List.sublist_append_left s (a :: u))
    · obtain ⟨l₁, v, l₂, l₃, heq, hnd⟩ := ih ht
      exact ⟨a :: l₁, v, l₂, l₃, by rw [heq]; rfl, hnd⟩

/-- A duplicate-free list included in another is no longer than it. -/
theorem nodup_subset_length {α : Type} [DecidableEq α] {l₁ l₂ : List α}
    (h1 : l₁.Nodup) (h2 : ∀ x ∈ l₁, x ∈ l₂) : l₁.length ≤ l₂.length :=
  (h1.subperm h2).length_le

/-- No child path in the resolved forest revisits a node. -/
theorem childChain_nodup (nodes : List HNode) (hnd : (idsOf nodes).Nodup)
    (p : List Nat)
    (hchain : List.Chain' (fun u v => v ∈ childrenOf nodes u) p) : p.Nodup := by
  by_contra hdup
  obtain ⟨l₁, v, l₂, l₃, heq, hseg⟩ := exists_first_dup p hdup
  have hinfix : List.Chain' (fun u v => v ∈ childrenOf nodes u) ((v :: l₂) ++ [v]) := by
    apply hchain.infix
    rw [heq]
    exact ⟨l₁, l₃, by simp⟩
  have hcyc : fpClimb nodes (l₂.length + 1) v = some v :=
    chain_climb_segment nodes hnd l₂ v v hinfix
  have hsub : ∀ x ∈ (v :: l₂), x ∈ idsOf nodes :=
    fun x hx => chain_front_mem_ids nodes (v :: l₂) v hinfix x hx
  have hlen : (v :: l₂).length ≤ (idsOf nodes).length := nodup_subset_length hseg hsub
  have hlen' : l₂.length + 1 ≤ nodes.length := by
    simpa [idsOf] using hlen
  exact fpClimb_no_cycle nodes (l₂.length + 1) v (by omega) hlen' hcyc

/-- Demotion policy: a node with no declared parent, a dangling parent
reference, or a position on a parent cycle appears among the roots — it is
never dropped. -/
theorem demoted_mem_roots (nodes : List HNode) (n : HNode) (hn : n ∈ nodes)
    (h : n.parent_id = none ∨
      ∃ p, n.parent_id = some p ∧ (p ∉ idsOf nodes ∨ onCycle nodes n.id = true)) :
    n.id ∈ rootsOf nodes := by
  have hfp : finalParent nodes n = none := by
    unfold finalParent
    rcases h with h0 | ⟨p, hp, hbad⟩
    · rw [h0]
    · rw [hp]
      show (if (decide (p ∈ idsOf nodes) && !onCycle nodes n.id) = true
          then some p else none) = none
      rcases hbad with hnm | hcyc
      · rw [if_neg (by simp [hnm])]
      · rw [if_neg (by simp [hcyc])]
  unfold rootsOf
  apply List.mem_map_of_mem
  rw [(sortByKey_perm _).mem_iff]
  exact List.mem_filter.mpr ⟨hn, by simp [hfp]⟩

/-- The spec's induced-cycle example: two nodes pointing at each other. -/
def cyclePair : List HNode :=
  [{ id := 1, parent_id := some 2 }, { id := 2, parent_id := some 1 }]

/-- C1: on any input with distinct ids — parent cycles and dangling parents
allowed — the resolver yields a forest: every input node's id occurs exactly
once across the root list and all child lists (so nothing is lost or
duplicated and no node sits under two parents); no child path revisits a
node; a node with no parent, a dangling parent, or a place on a cycle is
demoted to a root rather than dropped; and on the induced cycle A→B→A both
nodes become roots exactly once, with the integrity warning raised. -/
theorem hierarchy_resolver_forest (nodes : List HNode)
    (hnd : (idsOf nodes).Nodup) :
    (∀ x ∈ idsOf nodes,
      occCount (rootsOf nodes ++ (idsOf nodes).flatMap (childrenOf nodes)) x = 1) ∧
    (∀ p : List Nat,
      List.Chain' (fun u v => v ∈ childrenOf nodes u) p → p.Nodup) ∧
    (∀ n ∈ nodes,
      (n.parent_id = none ∨
        ∃ q, n.parent_id = some q ∧ (q ∉ idsOf nodes ∨ onCycle nodes n.id = true)) →
      n.id ∈ rootsOf nodes) ∧
    (resolveForest cyclePair).roots = [1, 2] ∧
    (resolveForest cyclePair).children 1 = [] ∧
    (resolveForest cyclePair).children 2 = [] ∧
    (resolveForest cyclePair).warning = true := by
  refine ⟨fun x hx => occCount_forest nodes hnd x hx,
    fun p hp => childChain_nodup nodes hnd p hp,
    fun n hn h => demoted_mem_roots nodes n hn h,
    ?_, ?_, ?_, ?_⟩ <;> decide

/-- A two-node input (a root and its child) instantiating C1. -/
def demoPair : List HNode := [{ id := 1 }, { id := 2, parent_id := some 1 }]

/-- Witness for C1 at the concrete two-node input. -/
theorem hierarchy_resolver_forest_witness :
    (∀ x ∈ idsOf demoPair,
      occCount (rootsOf demoPair ++ (idsOf demoPair).flatMap (childrenOf demoPair)) x
        = 1) ∧
    (∀ p : List Nat,
      List.Chain' (fun u v => v ∈ childrenOf demoPair u) p → p.Nodup) ∧
    (∀ n ∈ demoPair,
      (n.parent_id = none ∨
        ∃ q, n.parent_id = some q ∧
          (q ∉ idsOf demoPair ∨ onCycle demoPair n.id = true)) →
      n.id ∈ rootsOf demoPair) ∧
    (resolveForest cyclePair).roots = [1, 2] ∧
    (resolveForest cyclePair).children 1 = [] ∧
    (resolveForest cyclePair).children 2 = [] ∧
    (resolveForest cyclePair).warning = true :=
  hierarchy_resolver_forest demoPair (by decide)
